import Mathlib

/-!
Verification of `doc/_extensions/external_content.py` (a Sphinx extension that
copies external sources into the build source tree and rewrites relative
directive paths).

Shallow embedding conventions:
* Text is `List Char`; a filesystem path is `Comps := List (List Char)`, the
  list of its components.  Absolute directories handed to the Python code
  (`fname.parent`, `basepath`, `app.srcdir`) are represented directly as
  normalized component lists.
* Captured directive path arguments stay as raw `List Char` and are split on
  the POSIX separator when the code joins them onto a directory
  (`basepath / fpath`, `fname.parent / fpath`).
* `os.path.relpath` / `os.path.normpath` are lexical; `Path.exists` is an
  oracle `Comps → Bool` (symlink-free filesystem, so lexical resolution and
  the OS agree).
* The filesystem is a record of a partial map from paths to file contents and
  modification times, plus a set of directories.  `distutils.file_util
  .copy_file(update=True)` copies iff the destination is missing or strictly
  older than the source, preserving the source's mtime (`preserve_times`
  defaults to true); a missing source raises, modelled by `Option`.
-/

set_option autoImplicit false

/-- Path components: a path is the list of its components. -/
abbrev Comps := List (List Char)

/-- The POSIX path separator. -/
def sep : Char := '/'

/-- One `..` component (`os.pardir`). -/
def dotdot : List Char := ['.', '.']

/-- A path component is plain when it is neither empty nor `.` nor `..` and
contains no separator; components of normalized absolute paths are plain. -/
def goodC (c : List Char) : Prop :=
  c ≠ [] ∧ c ≠ ['.'] ∧ c ≠ dotdot ∧ sep ∉ c

instance (c : List Char) : Decidable (goodC c) := by
  unfold goodC; infer_instance

/-- Split a raw path string into components at every separator, as
`str.split(sep)` does (an empty string yields one empty component). -/
def splitSlash : List Char → Comps
  | [] => [[]]
  | c :: cs =>
    if c = sep then [] :: splitSlash cs
    else (c :: (splitSlash cs).headI) :: (splitSlash cs).tail

/-- Join components with the separator (inverse of `splitSlash` on separator
free components). -/
def joinSlash : Comps → List Char
  | [] => []
  | [c] => c
  | c :: c2 :: cs => c ++ sep :: joinSlash (c2 :: cs)

/-- Resolve a component sequence against an absolute directory, skipping
empty and `.` components and popping on `..`, exactly as
`os.path.normpath(base + rel)` treats an absolute base. -/
def normJoin (base : Comps) : Comps → Comps
  | [] => base
  | c :: cs =>
    if c = [] ∨ c = ['.'] then normJoin base cs
    else if c = dotdot then normJoin base.dropLast cs
    else normJoin (base ++ [c]) cs

/-- Length of the common leading component run of two paths, as the zip loop
in `posixpath.relpath` computes it. -/
def commonLen : Comps → Comps → Nat
  | a :: as, b :: bs => if a = b then commonLen as bs + 1 else 0
  | _, _ => 0

/-- `os.path.relpath(target, base)` on normalized absolute component lists:
climb out of the uncommon part of `base`, then descend into `target`. -/
def relComps (target base : Comps) : Comps :=
  List.replicate (base.length - commonLen target base) dotdot
    ++ target.drop (commonLen target base)

/-- Render a relative component list as text; `posixpath.relpath` returns
`.` for an empty result. -/
def renderRel (l : Comps) : List Char :=
  if l = [] then ['.'] else joinSlash l

/-- `fpath.startswith("/")` of the raw captured path. -/
def startsSlash : List Char → Bool
  | c :: _ => c = sep
  | [] => false

/-- The path replacement computed by `_adjust` inside `adjust_includes`:
keep absolute paths and paths that already exist relative to the destination
file's directory `dstDir`; otherwise relativize `basepath / fpath` (here
`srcDir / fpath`) against `dstDir` and render it in POSIX form. -/
def fpathAdjust (fsEx : Comps → Bool) (dstDir srcDir : Comps) (fpath : List Char) : List Char :=
  if startsSlash fpath || fsEx (normJoin dstDir (splitSlash fpath)) then fpath
  else renderRel (relComps (normJoin srcDir (splitSlash fpath)) dstDir)

/-- Modelled from the spec: the path-replacement rule exactly as §4.2 words
it, for comparison with the code-derived `fpathAdjust`. -/
def fpathRuleSpec (fsEx : Comps → Bool) (dstDir srcDir : Comps) (fpath : List Char) : List Char :=
  if startsSlash fpath then fpath
  else if fsEx (normJoin dstDir (splitSlash fpath)) then fpath
  else renderRel (relComps (normJoin srcDir (splitSlash fpath)) dstDir)

/-!
The scan `re.subn(r"\.\. (" + "|".join(directives) + r")::\s*([^`\n]+)", _adjust, content)`
is modelled by a direct backtracking matcher for this one pattern:
literal `.. `, one alternative of the directive list, literal `::`, a greedy
whitespace run that can be given back one character at a time, then a greedy
nonempty run of characters other than backquote and newline (group 2).
`\s` is modelled by its ASCII cases (documentation sources are ASCII here).
-/

/-- Characters group 2 accepts: anything except a backquote or a newline. -/
def inPathClass (c : Char) : Bool := !(c.toNat = 96 || c = '\n')

/-- ASCII whitespace accepted by a `\s` item. -/
def isSpaceRe (c : Char) : Bool :=
  c = ' ' || c = '\t' || c = '\n' || c = '\r' || c = '\x0c' || c = '\x0b'

/-- Match `\s*([^`\n]+)` at the head of the input with the regex engine's
greedy backtracking: prefer consuming whitespace, fall back to starting
group 2 on the current character.  Returns group 2 and the rest. -/
def matchWsPath : List Char → Option (List Char × List Char)
  | [] => none
  | c :: cs =>
    if isSpaceRe c then
      match matchWsPath cs with
      | some r => some r
      | none =>
        if inPathClass c then
          some ((c :: cs).takeWhile inPathClass, (c :: cs).dropWhile inPathClass)
        else none
    else
      if inPathClass c then
        some ((c :: cs).takeWhile inPathClass, (c :: cs).dropWhile inPathClass)
      else none

/-- Strip an expected literal from the head of the input. -/
def stripPre : List Char → List Char → Option (List Char)
  | [], cs => some cs
  | _ :: _, [] => none
  | a :: as, c :: cs => if a = c then stripPre as cs else none

/-- Try one directive alternative: the literal name, then `::`, then
`\s*([^`\n]+)`.  Returns (directive, group 2, rest) on success. -/
def matchOneDir (d : List Char) (cs : List Char) :
    Option (List Char × List Char × List Char) :=
  match stripPre d cs with
  | none => none
  | some afterD =>
    match stripPre [':', ':'] afterD with
    | none => none
    | some afterCols =>
      match matchWsPath afterCols with
      | none => none
      | some (p, rem) => some (d, p, rem)

/-- Try the directive alternatives in order; on any failure of the rest of
the pattern, fall through to the next alternative. -/
def matchDirs : List (List Char) → List Char → Option (List Char × List Char × List Char)
  | [], _ => none
  | d :: rest, cs =>
    match matchOneDir d cs with
    | some m => some m
    | none => matchDirs rest cs

/-- Match the whole pattern at the head of the input. -/
def matchDirective (ds : List (List Char)) (cs : List Char) :
    Option (List Char × List Char × List Char) :=
  match stripPre ['.', '.', ' '] cs with
  | none => none
  | some rest => matchDirs ds rest

/-- One pass of `re.subn` over the text, on explicit fuel so that it is
structurally recursive (each step consumes at least one character, so any
fuel of at least the text's length gives the untruncated scan —
`scanAdjustF_fuel` below): find leftmost non-overlapping matches, replace
each by `.. {directive}:: {adj group2}`, and count the matches. -/
def scanAdjustF (ds : List (List Char)) (adj : List Char → List Char) :
    Nat → List Char → List Char × Nat
  | _, [] => ([], 0)
  | 0, l => (l, 0)
  | Nat.succ fuel, c :: cs =>
    match matchDirective ds (c :: cs) with
    | some m =>
      let t := scanAdjustF ds adj fuel m.2.2
      (['.', '.', ' '] ++ m.1 ++ [':', ':', ' '] ++ adj m.2.1 ++ t.1, t.2 + 1)
    | none =>
      let t := scanAdjustF ds adj fuel cs
      (c :: t.1, t.2)

/-- The `re.subn` model: replaced text and match count (the code's
`modified`). -/
def scanAdjust (ds : List (List Char)) (adj : List Char → List Char)
    (content : List Char) : List Char × Nat :=
  scanAdjustF ds adj content.length content

/-- The `.rst` suffix the rewriter requires. -/
def rstExt : List Char := ['.', 'r', 's', 't']

/-- Result of one `adjust_includes` call on a file's text: the text on disk
afterwards, and whether the file was written back (seek, write, truncate). -/
structure AdjustResult where
  text : List Char
  wrote : Bool
deriving DecidableEq

/-- `adjust_includes` at the content level: skip files whose suffix is not
`.rst`; otherwise substitute with `_adjust` and write back exactly when
`re.subn` reported a nonzero substitution count. -/
def adjustIncludes (suffix : List Char) (fsEx : Comps → Bool) (dstDir srcDir : Comps)
    (ds : List (List Char)) (content : List Char) : AdjustResult :=
  if suffix ≠ rstExt then ⟨content, false⟩
  else
    let r := scanAdjust ds (fpathAdjust fsEx dstDir srcDir) content
    if r.2 ≠ 0 then ⟨r.1, true⟩ else ⟨content, false⟩

/-!
Filesystem model for `sync_contents`: a partial map from paths to
(content, mtime) plus a set of directories.  A `CopyTask` is one `to_copy`
entry `(src, prefix_src)`.
-/

/-- A regular file's observable state: its text and modification time. -/
structure FileInfo where
  content : List Char
  mtime : Nat
deriving DecidableEq

/-- The filesystem: regular files and directories. -/
structure FS where
  files : Comps → Option FileInfo
  dirs : Comps → Bool

/-- Create or clobber one regular file. -/
def setFile (fsys : FS) (p : Comps) (fi : FileInfo) : FS :=
  ⟨fun q => if q = p then some fi else fsys.files q, fsys.dirs⟩

/-- Decidable initial-segment test on component lists. -/
def isInit : Comps → Comps → Bool
  | [], _ => true
  | _ :: _, [] => false
  | a :: as, b :: bs => if a = b then isInit as bs else false

/-- `dst.parent.mkdir(parents=True)`: the directory and every ancestor now
exist. -/
def mkdirP (fsys : FS) (p : Comps) : FS :=
  ⟨fsys.files, fun q => fsys.dirs q || isInit q p⟩

/-- `Path.exists`: true for a regular file or a directory. -/
def existsP (fsys : FS) (p : Comps) : Bool := (fsys.files p).isSome || fsys.dirs p

/-- `if not dst.parent.exists(): dst.parent.mkdir(parents=True)`. -/
def ensureParent (fsys : FS) (par : Comps) : FS :=
  if existsP fsys par then fsys else mkdirP fsys par

/-- `distutils.file_util.copy_file(src, dst, update=True)`: raise (`none`)
if the source is missing; copy (content and, by `preserve_times`, mtime)
iff the destination is missing or strictly older; return the `copied`
flag (`status[1]`). -/
def copyFileUpdate (fsys : FS) (src dst : Comps) : Option (FS × Bool) :=
  match fsys.files src with
  | none => none
  | some si =>
    match fsys.files dst with
    | some di =>
      if di.mtime < si.mtime then some (setFile fsys dst si, true)
      else some (fsys, false)
    | none => some (setFile fsys dst si, true)

/-- Index of the last `.` in a file name, if any. -/
def lastDotIdx : List Char → Option Nat
  | [] => none
  | c :: cs =>
    match lastDotIdx cs with
    | some i => some (i + 1)
    | none => if c = '.' then some (0 : Nat) else none

/-- `pathlib` extension of a file name: from the last dot, provided it is
neither the leading character nor the final character. -/
def extOf (name : List Char) : List Char :=
  match lastDotIdx name with
  | some i => if 0 < i ∧ i < name.length - 1 then name.drop i else []
  | none => []

/-- `Path.suffix` of a path: the extension of its final component. -/
def suffixOf (p : Comps) : List Char :=
  match p.getLast? with
  | none => []
  | some name => extOf name

/-- One task of the `to_copy` list: the matched source file and its content
entry's base directory (`prefix_src`). -/
structure CopyTask where
  src : Comps
  base : Comps
deriving DecidableEq

/-- `dst = srcdir / src.relative_to(prefix_src)`. -/
def dstOf (srcdir : Comps) (t : CopyTask) : Comps :=
  srcdir ++ t.src.drop t.base.length

/-- The `adjust_includes(dst, src.parent, directives, encoding)` call made
after a copy, acting on the whole filesystem: read the destination file,
substitute, and write back (bumping the mtime to `now`) iff the scan made
at least one substitution. -/
def rewritePass (ds : List (List Char)) (now : Nat) (fsys : FS) (dst srcParent : Comps) : FS :=
  match fsys.files dst with
  | none => fsys
  | some fi =>
    let r := adjustIncludes (suffixOf dst) (fun p => existsP fsys p) dst.dropLast srcParent ds
      fi.content
    if r.wrote then setFile fsys dst ⟨r.text, now⟩ else fsys

/-- The body of the `for entry in to_copy` loop for one task: ensure the
destination's parent directory exists, copy with the freshness check, and
on an actual copy run the rewrite pass on the destination.  Returns the
new filesystem and the `copied` flag. -/
def syncStep (srcdir : Comps) (ds : List (List Char)) (now : Nat) (fsys : FS) (t : CopyTask) :
    Option (FS × Bool) :=
  let dst := dstOf srcdir t
  let fs1 := ensureParent fsys dst.dropLast
  match copyFileUpdate fs1 t.src dst with
  | none => none
  | some (fs2, copied) =>
    if copied then some (rewritePass ds now fs2 dst t.src.dropLast, true)
    else some (fs2, false)

/-- `sync_contents` over an already-expanded `to_copy` list; the returned
flag records whether any copy at all was performed during the run. -/
def syncContents (srcdir : Comps) (ds : List (List Char)) (now : Nat) :
    FS → List CopyTask → Option (FS × Bool)
  | fsys, [] => some (fsys, false)
  | fsys, t :: ts =>
    match syncStep srcdir ds now fsys t with
    | none => none
    | some (fs1, c) =>
      match syncContents srcdir ds now fs1 ts with
      | none => none
      | some (fs2, b) => some (fs2, c || b)

/-- Destination mtime bound: the path holds a file at least as new as `m`. -/
def mtimeGE (fsys : FS) (p : Comps) (m : Nat) : Prop :=
  ∃ fi, fsys.files p = some fi ∧ m ≤ fi.mtime

/-!
Concrete instances used by witnesses and counterexamples.
-/

/-- The existence oracle of an empty external filesystem. -/
def fsF : Comps → Bool := fun _ => false

/-- A destination directory `/bld`. -/
def bldC : Comps := ["bld".toList]

/-- A source directory `/ext`. -/
def extC : Comps := ["ext".toList]

/-- A one-directive configuration. -/
def dsC : List (List Char) := ["include".toList]

/-- An oracle on which exactly the rewrite target `/ext/a.rst` exists. -/
def fsTgt : Comps → Bool := fun q => decide (q = ["ext".toList, "a.rst".toList])

/-- A directive line whose absolute path is already separated by exactly one
space: the substitution reproduces the text unchanged. -/
def c3in : List Char := ".. include:: /a".toList

/-- A directive line whose absolute path is separated by two spaces. -/
def c4in : List Char := ".. include::  /a".toList

/-- A directive whose path argument sits on the following line. -/
def c9in : List Char := ".. include::\n   /a.rst\nrest".toList

/-- The joined form produced for `c9in`. -/
def c9out : List Char := ".. include:: /a.rst\nrest".toList

/-- A task copying `/ext/f.rst` into `/bld`. -/
def t5 : CopyTask := ⟨["ext".toList, "f.rst".toList], ["ext".toList]⟩

/-- A filesystem on which `t5`'s destination is already up to date. -/
def fs5 : FS :=
  ⟨fun q =>
    if q = ["ext".toList, "f.rst".toList] then some ⟨"x".toList, 5⟩
    else if q = ["bld".toList, "f.rst".toList] then some ⟨"x".toList, 5⟩
    else none,
   fun q => decide (q = [] ∨ q = ["bld".toList] ∨ q = ["ext".toList])⟩

/-- A task whose source `/bld/b/f.rst` lies inside the build source tree. -/
def t7a : CopyTask := ⟨["bld".toList, "b".toList, "f.rst".toList], ["bld".toList, "b".toList]⟩

/-- A task whose destination is `t7a`'s source. -/
def t7b : CopyTask := ⟨["ext".toList, "b".toList, "f.rst".toList], ["ext".toList]⟩

/-- Start state for the failed-idempotence run. -/
def fs7 : FS :=
  ⟨fun q =>
    if q = ["bld".toList, "b".toList, "f.rst".toList] then some ⟨"x".toList, 3⟩
    else if q = ["bld".toList, "f.rst".toList] then some ⟨"x".toList, 3⟩
    else if q = ["ext".toList, "b".toList, "f.rst".toList] then some ⟨"y".toList, 9⟩
    else none,
   fun q => decide (q = [] ∨ q = ["bld".toList] ∨ q = ["bld".toList, "b".toList]
     ∨ q = ["ext".toList] ∨ q = ["ext".toList, "b".toList])⟩

/-- State after the first run: `t7b` refreshed `/bld/b/f.rst`. -/
def fs7b : FS := setFile fs7 ["bld".toList, "b".toList, "f.rst".toList] ⟨"y".toList, 9⟩

/-- The failed-idempotence task list. -/
def tasks7 : List CopyTask := [t7a, t7b]

/-- A single well-behaved task for the idempotence witness. -/
def t7w : CopyTask := ⟨["ext".toList, "g.rst".toList], ["ext".toList]⟩

/-- Start state for the idempotence witness. -/
def fs7w : FS :=
  ⟨fun q => if q = ["ext".toList, "g.rst".toList] then some ⟨"z".toList, 5⟩ else none,
   fun q => decide (q = [] ∨ q = ["bld".toList] ∨ q = ["ext".toList])⟩

/-- State after the first run of the idempotence witness. -/
def fs7w1 : FS := setFile fs7w ["bld".toList, "g.rst".toList] ⟨"z".toList, 5⟩

/-- An empty filesystem. -/
def fsEmpty : FS := ⟨fun _ => none, fun _ => false⟩

theorem commonLen_le_left : ∀ a b : Comps, commonLen a b ≤ a.length := by
  intro a
  induction a with
  | nil => intro b; cases b <;> simp [commonLen]
  | cons x xs ih =>
    intro b
    cases b with
    | nil => simp [commonLen]
    | cons y ys =>
      simp only [commonLen, List.length_cons]
      split
      · exact Nat.succ_le_succ (ih ys)
      · exact Nat.zero_le _

theorem commonLen_le_right : ∀ a b : Comps, commonLen a b ≤ b.length := by
  intro a
  induction a with
  | nil => intro b; cases b <;> simp [commonLen]
  | cons x xs ih =>
    intro b
    cases b with
    | nil => simp [commonLen]
    | cons y ys =>
      simp only [commonLen, List.length_cons]
      split
      · exact Nat.succ_le_succ (ih ys)
      · exact Nat.zero_le _

theorem take_commonLen : ∀ a b : Comps, a.take (commonLen a b) = b.take (commonLen a b) := by
  intro a
  induction a with
  | nil => intro b; cases b <;> simp [commonLen]
  | cons x xs ih =>
    intro b
    cases b with
    | nil => simp [commonLen]
    | cons y ys =>
      simp only [commonLen]
      split
      · next hxy => simp [List.take_succ_cons, hxy, ih ys]
      · simp

theorem normJoin_plain : ∀ (l B : Comps),
    (∀ c ∈ l, c ≠ [] ∧ c ≠ ['.'] ∧ c ≠ dotdot) → normJoin B l = B ++ l := by
  intro l
  induction l with
  | nil => intro B _; simp [normJoin]
  | cons c cs ih =>
    intro B h
    have hc := h c (by simp)
    simp only [normJoin, if_neg (by tauto : ¬(c = [] ∨ c = ['.'])), if_neg hc.2.2]
    rw [ih (B ++ [c]) (fun d hd => h d (by simp [hd]))]
    simp

theorem dropLast_take (B : Comps) : B.dropLast = B.take (B.length - 1) := by
  induction B with
  | nil => simp
  | cons x xs ih =>
    cases xs with
    | nil => simp
    | cons y ys => simp [List.dropLast, ih]

theorem normJoin_replicate : ∀ (n : Nat) (B l : Comps),
    normJoin B (List.replicate n dotdot ++ l) = normJoin (B.take (B.length - n)) l := by
  intro n
  induction n with
  | zero => intro B l; simp
  | succ n ih =>
    intro B l
    have hstep : normJoin B (List.replicate (n + 1) dotdot ++ l)
        = normJoin B.dropLast (List.replicate n dotdot ++ l) := by
      rw [List.replicate_succ, List.cons_append]
      simp [normJoin, dotdot]
    rw [hstep, ih B.dropLast l, dropLast_take, List.take_take, List.length_take]
    congr 1
    congr 1
    omega

theorem normJoin_mem_good : ∀ (l B : Comps), (∀ c ∈ B, goodC c) → (∀ c ∈ l, sep ∉ c) →
    ∀ c ∈ normJoin B l, goodC c := by
  intro l
  induction l with
  | nil => intro B hB _; simpa [normJoin] using hB
  | cons c cs ih =>
    intro B hB hl
    simp only [normJoin]
    split
    · exact ih B hB (fun d hd => hl d (by simp [hd]))
    · split
      · refine ih B.dropLast (fun d hd => hB d ?_) (fun d hd => hl d (by simp [hd]))
        rw [dropLast_take] at hd
        exact List.take_subset _ _ hd
      · next h1 h2 =>
        refine ih (B ++ [c]) (fun d hd => ?_) (fun d hd => hl d (by simp [hd]))
        rcases List.mem_append.mp hd with h | h
        · exact hB d h
        · have : d = c := by simpa using h
          subst this
          exact ⟨by tauto, by tauto, h2, hl d (by simp)⟩

theorem splitSlash_ne_nil : ∀ (l : List Char), splitSlash l ≠ [] := by
  intro l
  cases l with
  | nil => simp [splitSlash]
  | cons x xs =>
    simp only [splitSlash]
    split <;> simp

theorem splitSlash_no_sep : ∀ (l : List Char), ∀ c ∈ splitSlash l, sep ∉ c := by
  intro l
  induction l with
  | nil => intro c hc; simp [splitSlash] at hc; simp [hc]
  | cons x xs ih =>
    intro c hc
    simp only [splitSlash] at hc
    split at hc
    · rcases List.mem_cons.mp hc with h | h
      · simp [h]
      · exact ih c h
    · next hx =>
      rcases List.mem_cons.mp hc with h | h
      · subst h
        intro hmem
        rcases List.mem_cons.mp hmem with h' | h'
        · exact hx h'.symm
        · obtain ⟨d, t, hd⟩ := List.exists_cons_of_ne_nil (splitSlash_ne_nil xs)
          rw [hd] at h'
          exact ih d (by rw [hd]; simp) h'
      · exact ih c (List.mem_of_mem_tail h)

theorem splitSlash_append_sep : ∀ (c : List Char) (r : List Char), sep ∉ c →
    splitSlash (c ++ sep :: r) = c :: splitSlash r := by
  intro c
  induction c with
  | nil => intro r _; simp [splitSlash]
  | cons x xs ih =>
    intro r hx
    have hxs : x ≠ sep := by intro h; exact hx (by simp [h])
    simp only [List.cons_append, splitSlash, if_neg hxs, List.append_eq]
    rw [ih r (fun h => hx (by simp [h]))]
    simp

theorem splitSlash_single : ∀ (c : List Char), sep ∉ c → splitSlash c = [c] := by
  intro c
  induction c with
  | nil => intro _; simp [splitSlash]
  | cons x xs ih =>
    intro hx
    have hxs : x ≠ sep := by intro h; exact hx (by simp [h])
    simp only [splitSlash, if_neg hxs]
    rw [ih (fun h => hx (by simp [h]))]
    simp

theorem splitSlash_joinSlash : ∀ (l : Comps), l ≠ [] → (∀ c ∈ l, sep ∉ c) →
    splitSlash (joinSlash l) = l := by
  intro l
  induction l with
  | nil => intro h _; exact absurd rfl h
  | cons c cs ih =>
    intro _ hsep
    cases cs with
    | nil => exact splitSlash_single c (hsep c (by simp))
    | cons c2 cs2 =>
      simp only [joinSlash]
      rw [splitSlash_append_sep c _ (hsep c (by simp))]
      rw [ih (by simp) (fun d hd => hsep d (by simp [hd]))]

/-- Core round-trip fact: resolving, from directory `D`, the rendered result
of `os.path.relpath T D` lands back on `T` (for normalized `T`). -/
theorem normJoin_relComps (T D : Comps) (hT : ∀ c ∈ T, goodC c) :
    normJoin D (splitSlash (renderRel (relComps T D))) = T := by
  by_cases hempty : relComps T D = []
  · have hk1 : commonLen T D ≤ D.length := commonLen_le_right T D
    have hk2 : commonLen T D ≤ T.length := commonLen_le_left T D
    rcases List.append_eq_nil.mp hempty with ⟨h1, h2⟩
    have hn : D.length - commonLen T D = 0 := by
      simpa using congrArg List.length h1
    have hTD : T = D := by
      have hkD : commonLen T D = D.length := by omega
      have hkT : commonLen T D = T.length := by
        have := List.drop_eq_nil_iff.mp h2
        omega
      calc T = T.take (commonLen T D) := by rw [hkT, List.take_length]
        _ = D.take (commonLen T D) := take_commonLen T D
        _ = D := by rw [hkD, List.take_length]
    rw [hempty, hTD]
    have : splitSlash (renderRel ([] : Comps)) = [['.']] := by decide
    rw [this]
    simp [normJoin]
  · have hnosep : ∀ c ∈ relComps T D, sep ∉ c := by
      intro c hc
      rcases List.mem_append.mp hc with h | h
      · have : c = dotdot := List.eq_of_mem_replicate h
        subst this; decide
      · exact (hT c (List.drop_subset _ _ h)).2.2.2
    rw [renderRel, if_neg hempty, splitSlash_joinSlash _ hempty hnosep]
    unfold relComps
    rw [normJoin_replicate]
    have hk : commonLen T D ≤ D.length := commonLen_le_right T D
    have hlen : D.length - (D.length - commonLen T D) = commonLen T D := by omega
    rw [hlen, ← take_commonLen T D]
    rw [normJoin_plain _ _ (fun c hc => by
      have := hT c (List.drop_subset _ _ hc)
      exact ⟨this.1, this.2.1, this.2.2.1⟩)]
    exact List.take_append_drop _ T

theorem dropWhile_length_le (p : Char → Bool) : ∀ (l : List Char),
    (l.dropWhile p).length ≤ l.length := by
  intro l
  induction l with
  | nil => simp
  | cons x xs ih =>
    rw [List.dropWhile_cons]
    split
    · exact Nat.le_succ_of_le ih
    · simp

theorem matchWsPath_len : ∀ (cs p rem : List Char), matchWsPath cs = some (p, rem) →
    rem.length ≤ cs.length := by
  intro cs
  induction cs with
  | nil => intro p rem h; simp [matchWsPath] at h
  | cons c cs ih =>
    intro p rem h
    simp only [matchWsPath] at h
    split at h
    · cases hr : matchWsPath cs with
      | some r =>
        rw [hr] at h
        simp only [Option.some.injEq] at h
        subst h
        have := ih p rem hr
        exact Nat.le_succ_of_le this
      | none =>
        rw [hr] at h
        simp only at h
        split at h
        · simp only [Option.some.injEq, Prod.mk.injEq] at h
          rw [← h.2]
          exact dropWhile_length_le _ _
        · simp at h
    · split at h
      · simp only [Option.some.injEq, Prod.mk.injEq] at h
        rw [← h.2]
        exact dropWhile_length_le _ _
      · simp at h

theorem stripPre_len : ∀ (d cs r : List Char), stripPre d cs = some r →
    r.length + d.length = cs.length := by
  intro d
  induction d with
  | nil => intro cs r h; simp [stripPre] at h; simp [h]
  | cons a as ih =>
    intro cs r h
    cases cs with
    | nil => simp [stripPre] at h
    | cons c cs =>
      simp only [stripPre] at h
      split at h
      · have := ih cs r h
        simp only [List.length_cons]
        omega
      · exact absurd h (by simp)

theorem matchOneDir_len (d cs : List Char) (m : List Char × List Char × List Char)
    (h : matchOneDir d cs = some m) : m.2.2.length ≤ cs.length := by
  unfold matchOneDir at h
  split at h
  · exact absurd h (by simp)
  · next afterD h1 =>
    split at h
    · exact absurd h (by simp)
    · next afterCols h2 =>
      split at h
      · exact absurd h (by simp)
      · next p rem h3 =>
        simp only [Option.some.injEq] at h
        subst h
        show rem.length ≤ cs.length
        have l3 := matchWsPath_len afterCols p rem h3
        have l2 := stripPre_len _ _ _ h2
        have l1 := stripPre_len _ _ _ h1
        simp only [List.length_cons, List.length_nil] at l2 l1
        omega

theorem matchDirs_len : ∀ (ds : List (List Char)) (cs : List Char)
    (m : List Char × List Char × List Char),
    matchDirs ds cs = some m → m.2.2.length ≤ cs.length := by
  intro ds
  induction ds with
  | nil => intro cs m h; simp [matchDirs] at h
  | cons d0 rest ih =>
    intro cs m h
    simp only [matchDirs] at h
    split at h
    · next m0 hm =>
      simp only [Option.some.injEq] at h
      subst h
      exact matchOneDir_len d0 cs m0 hm
    · exact ih cs m h

theorem matchDirective_len (ds : List (List Char)) (cs : List Char)
    (m : List Char × List Char × List Char) (h : matchDirective ds cs = some m) :
    m.2.2.length < cs.length := by
  unfold matchDirective at h
  split at h
  · exact absurd h (by simp)
  · next rest h1 =>
    have l1 := stripPre_len _ _ _ h1
    have l2 := matchDirs_len ds rest m h
    simp only [List.length_cons, List.length_nil] at l1
    omega

theorem scanAdjustF_fuel : ∀ (fuel1 : Nat) (fuel2 : Nat) (ds : List (List Char))
    (adj : List Char → List Char) (l : List Char), l.length ≤ fuel1 → l.length ≤ fuel2 →
    scanAdjustF ds adj fuel1 l = scanAdjustF ds adj fuel2 l := by
  intro fuel1
  induction fuel1 with
  | zero =>
    intro fuel2 ds adj l h1 h2
    cases l with
    | nil => cases fuel2 <;> rfl
    | cons c cs => simp at h1
  | succ fuel ih =>
    intro fuel2 ds adj l h1 h2
    cases l with
    | nil => cases fuel2 <;> rfl
    | cons c cs =>
      cases fuel2 with
      | zero => simp at h2
      | succ fuel2 =>
        simp only [scanAdjustF]
        simp only [List.length_cons] at h1 h2
        cases hm : matchDirective ds (c :: cs) with
        | some m =>
          have hlen := matchDirective_len ds (c :: cs) m hm
          simp only [List.length_cons] at hlen
          dsimp only
          rw [ih fuel2 ds adj m.2.2 (by omega) (by omega)]
        | none =>
          dsimp only
          rw [ih fuel2 ds adj cs (by omega) (by omega)]

theorem isInit_refl : ∀ (l : Comps), isInit l l = true := by
  intro l
  induction l with
  | nil => simp [isInit]
  | cons x xs ih => simp [isInit, ih]

theorem ensureParent_files (fsys : FS) (p : Comps) :
    (ensureParent fsys p).files = fsys.files := by
  unfold ensureParent
  split <;> rfl

theorem setFile_files_self (fsys : FS) (p : Comps) (fi : FileInfo) :
    (setFile fsys p fi).files p = some fi := by
  simp [setFile]

theorem setFile_files_ne (fsys : FS) (p q : Comps) (fi : FileInfo) (h : q ≠ p) :
    (setFile fsys p fi).files q = fsys.files q := by
  simp [setFile, h]

theorem rewritePass_files_ne (ds : List (List Char)) (now : Nat) (fsys : FS)
    (dst sp q : Comps) (h : q ≠ dst) :
    (rewritePass ds now fsys dst sp).files q = fsys.files q := by
  unfold rewritePass
  split
  · rfl
  · dsimp only
    split
    · exact setFile_files_ne _ _ _ _ h
    · rfl

theorem ensureParent_of_exists (fsys : FS) (p : Comps) (h : existsP fsys p = true) :
    ensureParent fsys p = fsys := by
  simp [ensureParent, h]

theorem existsP_mkdirP (fsys : FS) (p q : Comps) (h : existsP fsys q = true) :
    existsP (mkdirP fsys p) q = true := by
  simp only [existsP, mkdirP] at h ⊢
  rcases Bool.or_eq_true_iff.mp h with h | h
  · simp [h]
  · simp [h]

theorem ensureParent_exists_self (fsys : FS) (p : Comps) :
    existsP (ensureParent fsys p) p = true := by
  unfold ensureParent
  split
  · assumption
  · simp [existsP, mkdirP, isInit_refl]

theorem existsP_ensureParent (fsys : FS) (p q : Comps) (h : existsP fsys q = true) :
    existsP (ensureParent fsys p) q = true := by
  unfold ensureParent
  split
  · exact h
  · exact existsP_mkdirP fsys p q h

theorem existsP_setFile (fsys : FS) (p q : Comps) (fi : FileInfo)
    (h : existsP fsys q = true) : existsP (setFile fsys p fi) q = true := by
  by_cases hq : q = p
  · subst hq; simp [existsP, setFile]
  · simpa [existsP, setFile_files_ne fsys p q fi hq] using h

theorem existsP_rewritePass (ds : List (List Char)) (now : Nat) (fsys : FS)
    (dst sp q : Comps) (h : existsP fsys q = true) :
    existsP (rewritePass ds now fsys dst sp) q = true := by
  unfold rewritePass
  split
  · exact h
  · dsimp only
    split
    · exact existsP_setFile _ _ _ _ h
    · exact h

theorem copyFileUpdate_some_src (fsys : FS) (src dst : Comps) (r : FS × Bool)
    (hc : copyFileUpdate fsys src dst = some r) :
    ∃ si, fsys.files src = some si := by
  unfold copyFileUpdate at hc
  split at hc
  · exact absurd hc (by simp)
  · next si hs => exact ⟨si, hs⟩

theorem syncStep_some_src (srcdir : Comps) (ds : List (List Char)) (now : Nat)
    (fsys : FS) (t : CopyTask) (r : FS × Bool)
    (h : syncStep srcdir ds now fsys t = some r) :
    ∃ si, fsys.files t.src = some si := by
  simp only [syncStep] at h
  split at h
  · exact absurd h (by simp)
  · next fs2 copied hc =>
    have := copyFileUpdate_some_src _ _ _ _ hc
    rwa [ensureParent_files] at this

theorem copyFileUpdate_frame (fsys : FS) (src dst : Comps) (fsA : FS) (cA : Bool)
    (hc : copyFileUpdate fsys src dst = some (fsA, cA)) :
    ∀ q, q ≠ dst → fsA.files q = fsys.files q := by
  intro q hq
  unfold copyFileUpdate at hc
  split at hc
  · exact absurd hc (by simp)
  · next si hs =>
    split at hc
    · next di hd =>
      split at hc
      · simp only [Option.some.injEq, Prod.mk.injEq] at hc
        rw [← hc.1, setFile_files_ne _ _ _ _ hq]
      · simp only [Option.some.injEq, Prod.mk.injEq] at hc
        rw [← hc.1]
    · simp only [Option.some.injEq, Prod.mk.injEq] at hc
      rw [← hc.1, setFile_files_ne _ _ _ _ hq]

theorem syncStep_frame (srcdir : Comps) (ds : List (List Char)) (now : Nat)
    (fsys : FS) (t : CopyTask) (fs' : FS) (c : Bool)
    (h : syncStep srcdir ds now fsys t = some (fs', c)) :
    ∀ q, q ≠ dstOf srcdir t → fs'.files q = fsys.files q := by
  intro q hq
  simp only [syncStep] at h
  split at h
  · exact absurd h (by simp)
  · next fs2 copied hc =>
    have hbase : fs2.files q = fsys.files q := by
      rw [copyFileUpdate_frame _ _ _ _ _ hc q hq, ensureParent_files]
    split at h
    · simp only [Option.some.injEq, Prod.mk.injEq] at h
      rw [← h.1, rewritePass_files_ne _ _ _ _ _ _ hq, hbase]
    · simp only [Option.some.injEq, Prod.mk.injEq] at h
      rw [← h.1, hbase]

theorem mtimeGE_congr (fsys fs' : FS) (p : Comps) (m : Nat)
    (h : fs'.files p = fsys.files p) (hp : mtimeGE fsys p m) : mtimeGE fs' p m := by
  obtain ⟨fi, hfi, hle⟩ := hp
  exact ⟨fi, by rw [h]; exact hfi, hle⟩

theorem copyFileUpdate_exists (fsys : FS) (src dst : Comps) (fsA : FS) (cA : Bool)
    (hc : copyFileUpdate fsys src dst = some (fsA, cA)) (q : Comps)
    (h : existsP fsys q = true) : existsP fsA q = true := by
  unfold copyFileUpdate at hc
  split at hc
  · exact absurd hc (by simp)
  · next si hs =>
    split at hc
    · split at hc
      · simp only [Option.some.injEq, Prod.mk.injEq] at hc
        rw [← hc.1]
        exact existsP_setFile _ _ _ _ h
      · simp only [Option.some.injEq, Prod.mk.injEq] at hc
        rw [← hc.1]
        exact h
    · simp only [Option.some.injEq, Prod.mk.injEq] at hc
      rw [← hc.1]
      exact existsP_setFile _ _ _ _ h

theorem copyFileUpdate_mtimeGE (fsys : FS) (src dst p : Comps) (m : Nat) (fsA : FS) (cA : Bool)
    (hc : copyFileUpdate fsys src dst = some (fsA, cA)) (hp : mtimeGE fsys p m) :
    mtimeGE fsA p m := by
  by_cases hq : p = dst
  · subst hq
    unfold copyFileUpdate at hc
    split at hc
    · exact absurd hc (by simp)
    · next si hs =>
      split at hc
      · next di hd =>
        split at hc
        · next hlt =>
          simp only [Option.some.injEq, Prod.mk.injEq] at hc
          rw [← hc.1]
          obtain ⟨fi, hfi, hle⟩ := hp
          have : fi = di := by rw [hd] at hfi; exact (Option.some.inj hfi).symm
          subst this
          exact ⟨si, setFile_files_self _ _ _, by omega⟩
        · simp only [Option.some.injEq, Prod.mk.injEq] at hc
          rw [← hc.1]
          exact hp
      · next hd =>
        obtain ⟨fi, hfi, hle⟩ := hp
        rw [hd] at hfi
        exact absurd hfi (by simp)
  · exact mtimeGE_congr _ _ _ _ (copyFileUpdate_frame _ _ _ _ _ hc p hq) hp

theorem rewritePass_mtimeGE (ds : List (List Char)) (now : Nat) (fsys : FS)
    (dst sp p : Comps) (m : Nat) (hm : m ≤ now) (hp : mtimeGE fsys p m) :
    mtimeGE (rewritePass ds now fsys dst sp) p m := by
  by_cases hq : p = dst
  · subst hq
    unfold rewritePass
    split
    · exact hp
    · dsimp only
      split
      · exact ⟨_, setFile_files_self _ _ _, hm⟩
      · exact hp
  · exact mtimeGE_congr _ _ _ _ (rewritePass_files_ne _ _ _ _ _ _ hq) hp

theorem syncStep_mtimeGE (srcdir : Comps) (ds : List (List Char)) (now : Nat)
    (fsys : FS) (t : CopyTask) (fs' : FS) (c : Bool) (p : Comps) (m : Nat)
    (h : syncStep srcdir ds now fsys t = some (fs', c)) (hm : m ≤ now)
    (hp : mtimeGE fsys p m) : mtimeGE fs' p m := by
  simp only [syncStep] at h
  split at h
  · exact absurd h (by simp)
  · next fs2 copied hc =>
    have h1 : mtimeGE (ensureParent fsys (dstOf srcdir t).dropLast) p m :=
      mtimeGE_congr _ _ _ _ (by rw [ensureParent_files]) hp
    have h2 : mtimeGE fs2 p m := copyFileUpdate_mtimeGE _ _ _ _ _ _ _ hc h1
    split at h
    · simp only [Option.some.injEq, Prod.mk.injEq] at h
      rw [← h.1]
      exact rewritePass_mtimeGE _ _ _ _ _ _ _ hm h2
    · simp only [Option.some.injEq, Prod.mk.injEq] at h
      rw [← h.1]
      exact h2

theorem rewritePass_mtime_dst (ds : List (List Char)) (now : Nat) (fsys : FS)
    (dst sp : Comps) (fi : FileInfo) (m : Nat) (hfi : fsys.files dst = some fi)
    (hm : m ≤ fi.mtime) (hn : m ≤ now) :
    mtimeGE (rewritePass ds now fsys dst sp) dst m := by
  unfold rewritePass
  split
  · next h0 => rw [h0] at hfi; exact absurd hfi (by simp)
  · next fi0 h0 =>
    have : fi0 = fi := by rw [h0] at hfi; exact Option.some.inj hfi
    subst this
    dsimp only
    split
    · exact ⟨_, setFile_files_self _ _ _, hn⟩
    · exact ⟨fi0, h0, hm⟩

theorem syncStep_estab (srcdir : Comps) (ds : List (List Char)) (now : Nat)
    (fsys : FS) (t : CopyTask) (fs' : FS) (c : Bool) (si : FileInfo)
    (h : syncStep srcdir ds now fsys t = some (fs', c))
    (hs : fsys.files t.src = some si) (hn : si.mtime ≤ now) :
    mtimeGE fs' (dstOf srcdir t) si.mtime := by
  simp only [syncStep] at h
  split at h
  · exact absurd h (by simp)
  · next fs2 copied hc =>
    unfold copyFileUpdate at hc
    split at hc
    · exact absurd hc (by simp)
    · next si0 hs0 =>
      rw [ensureParent_files, hs] at hs0
      obtain rfl : si0 = si := (Option.some.inj hs0).symm
      split at hc
      · next di hd =>
        rw [ensureParent_files] at hd
        split at hc
        · next hlt =>
          simp only [Option.some.injEq, Prod.mk.injEq] at hc
          rw [← hc.2] at h
          simp at h
          obtain ⟨h1, h2⟩ := h
          subst h1
          exact rewritePass_mtime_dst _ _ _ _ _ si0 _
            (by rw [← hc.1]; exact setFile_files_self _ _ _) (Nat.le_refl _) hn
        · next hge =>
          simp only [Option.some.injEq, Prod.mk.injEq] at hc
          rw [← hc.2] at h
          simp at h
          obtain ⟨h1, h2⟩ := h
          subst h1
          rw [← hc.1]
          exact ⟨di, by rw [ensureParent_files]; exact hd, by omega⟩
      · next hd =>
        simp only [Option.some.injEq, Prod.mk.injEq] at hc
        rw [← hc.2] at h
        simp at h
        obtain ⟨h1, h2⟩ := h
        subst h1
        exact rewritePass_mtime_dst _ _ _ _ _ si0 _
          (by rw [← hc.1]; exact setFile_files_self _ _ _) (Nat.le_refl _) hn

theorem syncStep_exists_mono (srcdir : Comps) (ds : List (List Char)) (now : Nat)
    (fsys : FS) (t : CopyTask) (fs' : FS) (c : Bool) (q : Comps)
    (h : syncStep srcdir ds now fsys t = some (fs', c))
    (hq : existsP fsys q = true) : existsP fs' q = true := by
  simp only [syncStep] at h
  split at h
  · exact absurd h (by simp)
  · next fs2 copied hc =>
    have h1 : existsP (ensureParent fsys (dstOf srcdir t).dropLast) q = true :=
      existsP_ensureParent _ _ _ hq
    have h2 : existsP fs2 q = true := copyFileUpdate_exists _ _ _ _ _ hc q h1
    split at h
    · simp only [Option.some.injEq, Prod.mk.injEq] at h
      rw [← h.1]
      exact existsP_rewritePass _ _ _ _ _ _ h2
    · simp only [Option.some.injEq, Prod.mk.injEq] at h
      rw [← h.1]
      exact h2

theorem syncStep_parent (srcdir : Comps) (ds : List (List Char)) (now : Nat)
    (fsys : FS) (t : CopyTask) (fs' : FS) (c : Bool)
    (h : syncStep srcdir ds now fsys t = some (fs', c)) :
    existsP fs' (dstOf srcdir t).dropLast = true := by
  simp only [syncStep] at h
  split at h
  · exact absurd h (by simp)
  · next fs2 copied hc =>
    have h1 := ensureParent_exists_self fsys (dstOf srcdir t).dropLast
    have h2 : existsP fs2 (dstOf srcdir t).dropLast = true :=
      copyFileUpdate_exists _ _ _ _ _ hc _ h1
    split at h
    · simp only [Option.some.injEq, Prod.mk.injEq] at h
      rw [← h.1]
      exact existsP_rewritePass _ _ _ _ _ _ h2
    · simp only [Option.some.injEq, Prod.mk.injEq] at h
      rw [← h.1]
      exact h2

theorem syncStep_skip (srcdir : Comps) (ds : List (List Char)) (now : Nat)
    (fsys : FS) (t : CopyTask) (si di : FileInfo)
    (hs : fsys.files t.src = some si) (hd : fsys.files (dstOf srcdir t) = some di)
    (hm : si.mtime ≤ di.mtime) (hpar : existsP fsys (dstOf srcdir t).dropLast = true) :
    syncStep srcdir ds now fsys t = some (fsys, false) := by
  simp only [syncStep]
  rw [ensureParent_of_exists _ _ hpar]
  have hcu : copyFileUpdate fsys t.src (dstOf srcdir t) = some (fsys, false) := by
    unfold copyFileUpdate
    rw [hs, hd]
    simp [Nat.not_lt.mpr hm]
  rw [hcu]
  rfl

theorem syncContents_frame : ∀ (ts : List CopyTask) (srcdir : Comps) (ds : List (List Char))
    (now : Nat) (fsys fs' : FS) (w : Bool),
    syncContents srcdir ds now fsys ts = some (fs', w) →
    ∀ p, (∀ t ∈ ts, dstOf srcdir t ≠ p) → fs'.files p = fsys.files p := by
  intro ts
  induction ts with
  | nil =>
    intro srcdir ds now fsys fs' w h p hp
    simp only [syncContents, Option.some.injEq, Prod.mk.injEq] at h
    rw [← h.1]
  | cons t ts ih =>
    intro srcdir ds now fsys fs' w h p hp
    simp only [syncContents] at h
    split at h
    · exact absurd h (by simp)
    · next fs1 c hstep =>
      split at h
      · exact absurd h (by simp)
      · next fs2 b hrun =>
        simp only [Option.some.injEq, Prod.mk.injEq] at h
        rw [← h.1]
        rw [ih srcdir ds now fs1 fs2 b hrun p (fun u hu => hp u (List.mem_cons_of_mem t hu))]
        exact syncStep_frame srcdir ds now fsys t fs1 c hstep p
          (Ne.symm (hp t (List.mem_cons_self t ts)))

theorem syncContents_exists_mono : ∀ (ts : List CopyTask) (srcdir : Comps)
    (ds : List (List Char)) (now : Nat) (fsys fs' : FS) (w : Bool),
    syncContents srcdir ds now fsys ts = some (fs', w) →
    ∀ q, existsP fsys q = true → existsP fs' q = true := by
  intro ts
  induction ts with
  | nil =>
    intro srcdir ds now fsys fs' w h q hq
    simp only [syncContents, Option.some.injEq, Prod.mk.injEq] at h
    rw [← h.1]
    exact hq
  | cons t ts ih =>
    intro srcdir ds now fsys fs' w h q hq
    simp only [syncContents] at h
    split at h
    · exact absurd h (by simp)
    · next fs1 c hstep =>
      split at h
      · exact absurd h (by simp)
      · next fs2 b hrun =>
        simp only [Option.some.injEq, Prod.mk.injEq] at h
        rw [← h.1]
        exact ih srcdir ds now fs1 fs2 b hrun q
          (syncStep_exists_mono srcdir ds now fsys t fs1 c q hstep hq)

theorem syncContents_mtimeGE : ∀ (ts : List CopyTask) (srcdir : Comps)
    (ds : List (List Char)) (now : Nat) (fsys fs' : FS) (w : Bool) (p : Comps) (m : Nat),
    syncContents srcdir ds now fsys ts = some (fs', w) → m ≤ now →
    mtimeGE fsys p m → mtimeGE fs' p m := by
  intro ts
  induction ts with
  | nil =>
    intro srcdir ds now fsys fs' w p m h hm hp
    simp only [syncContents, Option.some.injEq, Prod.mk.injEq] at h
    rw [← h.1]
    exact hp
  | cons t ts ih =>
    intro srcdir ds now fsys fs' w p m h hm hp
    simp only [syncContents] at h
    split at h
    · exact absurd h (by simp)
    · next fs1 c hstep =>
      split at h
      · exact absurd h (by simp)
      · next fs2 b hrun =>
        simp only [Option.some.injEq, Prod.mk.injEq] at h
        rw [← h.1]
        exact ih srcdir ds now fs1 fs2 b p m hrun hm
          (syncStep_mtimeGE srcdir ds now fsys t fs1 c p m hstep hm hp)

theorem syncContents_parent : ∀ (ts : List CopyTask) (srcdir : Comps)
    (ds : List (List Char)) (now : Nat) (fsys fs' : FS) (w : Bool),
    syncContents srcdir ds now fsys ts = some (fs', w) →
    ∀ t ∈ ts, existsP fs' (dstOf srcdir t).dropLast = true := by
  intro ts
  induction ts with
  | nil => intro srcdir ds now fsys fs' w h t ht; simp at ht
  | cons t0 ts ih =>
    intro srcdir ds now fsys fs' w h t ht
    simp only [syncContents] at h
    split at h
    · exact absurd h (by simp)
    · next fs1 c hstep =>
      split at h
      · exact absurd h (by simp)
      · next fs2 b hrun =>
        simp only [Option.some.injEq, Prod.mk.injEq] at h
        rw [← h.1]
        rcases List.mem_cons.mp ht with rfl | ht'
        · exact syncContents_exists_mono ts srcdir ds now fs1 fs2 b hrun _
            (syncStep_parent srcdir ds now fsys t fs1 c hstep)
        · exact ih srcdir ds now fs1 fs2 b hrun t ht'

theorem syncContents_estab : ∀ (ts : List CopyTask) (srcdir : Comps)
    (ds : List (List Char)) (now : Nat) (fsys fs' : FS) (w : Bool),
    syncContents srcdir ds now fsys ts = some (fs', w) →
    (∀ t ∈ ts, ∀ u ∈ ts, dstOf srcdir u ≠ t.src) →
    (∀ t ∈ ts, ∀ si : FileInfo, fsys.files t.src = some si → si.mtime ≤ now) →
    ∀ t ∈ ts, ∃ si, fsys.files t.src = some si ∧ fs'.files t.src = some si ∧
      mtimeGE fs' (dstOf srcdir t) si.mtime := by
  intro ts
  induction ts with
  | nil => intro srcdir ds now fsys fs' w h _ _ t ht; simp at ht
  | cons t0 ts ih =>
    intro srcdir ds now fsys fs' w h hdisj hnow t ht
    simp only [syncContents] at h
    split at h
    · exact absurd h (by simp)
    · next fs1 c hstep =>
      split at h
      · exact absurd h (by simp)
      · next fs2 b hrun =>
        simp only [Option.some.injEq, Prod.mk.injEq] at h
        obtain ⟨rfl, hw⟩ := h
        rcases List.mem_cons.mp ht with rfl | ht'
        · obtain ⟨si, hsi⟩ := syncStep_some_src srcdir ds now fsys t (fs1, c) hstep
          refine ⟨si, hsi, ?_, ?_⟩
          · rw [syncContents_frame ts srcdir ds now fs1 fs2 b hrun t.src
              (fun u hu => hdisj t ht u (List.mem_cons_of_mem t hu))]
            rw [syncStep_frame srcdir ds now fsys t fs1 c hstep t.src
              (Ne.symm (hdisj t ht t (List.mem_cons_self t ts)))]
            exact hsi
          · have hn : si.mtime ≤ now := hnow t ht si hsi
            have h1 : mtimeGE fs1 (dstOf srcdir t) si.mtime :=
              syncStep_estab srcdir ds now fsys t fs1 c si hstep hsi hn
            exact syncContents_mtimeGE ts srcdir ds now fs1 fs2 b _ _ hrun hn h1
        · have hsrc1 : fs1.files t.src = fsys.files t.src :=
            syncStep_frame srcdir ds now fsys t0 fs1 c hstep t.src
              (Ne.symm (hdisj t ht t0 (List.mem_cons_self t0 ts)))
          obtain ⟨si, hsi1, hsi2, hge⟩ := ih srcdir ds now fs1 fs2 b hrun
            (fun u hu v hv => hdisj u (List.mem_cons_of_mem t0 hu) v (List.mem_cons_of_mem t0 hv))
            (fun u hu si hsi => hnow u (List.mem_cons_of_mem t0 hu) si
              (by rw [← syncStep_frame srcdir ds now fsys t0 fs1 c hstep u.src
                (Ne.symm (hdisj u (List.mem_cons_of_mem t0 hu) t0 (List.mem_cons_self t0 ts)))]
                  exact hsi))
            t ht'
          refine ⟨si, ?_, hsi2, hge⟩
          rw [← hsrc1]
          exact hsi1

theorem syncContents_skip : ∀ (ts : List CopyTask) (srcdir : Comps)
    (ds : List (List Char)) (now : Nat) (fsys : FS),
    (∀ t ∈ ts, ∃ si, fsys.files t.src = some si ∧
      mtimeGE fsys (dstOf srcdir t) si.mtime ∧
      existsP fsys (dstOf srcdir t).dropLast = true) →
    syncContents srcdir ds now fsys ts = some (fsys, false) := by
  intro ts
  induction ts with
  | nil => intro srcdir ds now fsys _; simp [syncContents]
  | cons t ts ih =>
    intro srcdir ds now fsys hsk
    obtain ⟨si, hsi, ⟨di, hdi, hmle⟩, hpar⟩ := hsk t (List.mem_cons_self t ts)
    have hstep := syncStep_skip srcdir ds now fsys t si di hsi hdi hmle hpar
    simp only [syncContents]
    rw [hstep]
    have hrun := ih srcdir ds now fsys (fun u hu => hsk u (List.mem_cons_of_mem t hu))
    simp [hrun]

theorem adjustIncludes_non_rst (suffix : List Char) (fsEx : Comps → Bool)
    (dstDir srcDir : Comps) (ds : List (List Char)) (content : List Char)
    (h : suffix ≠ rstExt) :
    adjustIncludes suffix fsEx dstDir srcDir ds content = ⟨content, false⟩ := by
  unfold adjustIncludes
  simp [h]

/-- Claim C1: for a directive path that neither is absolute nor resolves at
the destination, resolving the path produced by `_adjust` from the
destination file's directory yields the same target as resolving the
original path from the original source file's directory (directories given
as normalized absolute component lists). -/
theorem include_path_round_trip (fsEx : Comps → Bool) (srcDir dstDir : Comps)
    (p : List Char) (hS : ∀ c ∈ srcDir, goodC c) (_hD : ∀ c ∈ dstDir, goodC c)
    (hrel : startsSlash p = false)
    (hnex : fsEx (normJoin dstDir (splitSlash p)) = false) :
    normJoin dstDir (splitSlash (fpathAdjust fsEx dstDir srcDir p))
      = normJoin srcDir (splitSlash p) := by
  unfold fpathAdjust
  rw [hrel, hnex, if_neg (by simp)]
  exact normJoin_relComps _ _ (normJoin_mem_good _ _ hS (splitSlash_no_sep p))

/-- Witness for C1 at `/ext` → `/bld` with path `sub/a.rst`. -/
theorem include_path_round_trip_w :
    (∀ c ∈ extC, goodC c) ∧ (∀ c ∈ bldC, goodC c) ∧
    startsSlash ("sub/a.rst".toList) = false ∧
    fsF (normJoin bldC (splitSlash ("sub/a.rst".toList))) = false ∧
    normJoin bldC (splitSlash (fpathAdjust fsF bldC extC ("sub/a.rst".toList)))
      = normJoin extC (splitSlash ("sub/a.rst".toList)) :=
  ⟨by decide, by decide, by decide, by decide,
    include_path_round_trip fsF extC bldC ("sub/a.rst".toList)
      (by decide) (by decide) (by decide) (by decide)⟩

/-- Claim C2: the replacement path computed by `_adjust` agrees, on every
input, with the rule as the spec words it (keep absolute or
destination-resolving paths, otherwise relativize the source-side target
against the destination directory in POSIX form); hence every match in the
scan is replaced using that rule. -/
theorem adjust_path_rule (fsEx : Comps → Bool) (dstDir srcDir : Comps)
    (p content : List Char) (ds : List (List Char)) :
    fpathAdjust fsEx dstDir srcDir p = fpathRuleSpec fsEx dstDir srcDir p ∧
    scanAdjust ds (fpathAdjust fsEx dstDir srcDir) content
      = scanAdjust ds (fpathRuleSpec fsEx dstDir srcDir) content := by
  have hfun : fpathAdjust fsEx dstDir srcDir = fpathRuleSpec fsEx dstDir srcDir := by
    funext q
    unfold fpathAdjust fpathRuleSpec
    cases hs : startsSlash q <;>
      cases he : fsEx (normJoin dstDir (splitSlash q)) <;> simp [hs, he]
  exact ⟨congrFun hfun p, by rw [hfun]⟩

/-- Counterexample to claim C3: on `.. include:: /a` the single match is
kept textually identical, yet `modified` is the match count 1, so the file
is written back (seek, write, truncate — bumping its mtime) although no
substitution changed the text. -/
theorem adjust_write_unchanged_cex :
    adjustIncludes rstExt fsF bldC extC dsC c3in = ⟨c3in, true⟩ := by decide

/-- Claim C3 as amended: a processed `.rst` file is written back iff the
scan found at least one directive match (`re.subn`'s count is nonzero),
even when every replacement is textually identical to what it replaced. -/
theorem adjust_writes_iff_matched (suffix : List Char) (fsEx : Comps → Bool)
    (dstDir srcDir : Comps) (ds : List (List Char)) (content : List Char) :
    (adjustIncludes suffix fsEx dstDir srcDir ds content).wrote = true ↔
      suffix = rstExt ∧
        (scanAdjust ds (fpathAdjust fsEx dstDir srcDir) content).2 ≠ 0 := by
  unfold adjustIncludes
  split
  · next hsuf => simp [hsuf]
  · next hsuf =>
    have hs : suffix = rstExt := not_not.mp hsuf
    dsimp only
    split
    · next hm => simp [hs, hm]
    · next hm => simp [hs, hm]

/-- Counterexample to claim C4: `.. include::  /a` carries an absolute path
but is not left byte-for-byte unchanged — the two spaces after `::` are
collapsed to one. -/
theorem absolute_whitespace_cex :
    matchDirective ["include".toList] c4in
        = some ("include".toList, "/a".toList, []) ∧
    startsSlash ("/a".toList) = true ∧
    (adjustIncludes rstExt fsF bldC extC dsC c4in).text ≠ c4in ∧
    (adjustIncludes rstExt fsF bldC extC dsC c4in).text = c3in := by decide

/-- Claim C4 as amended: the path argument of an absolute or
destination-resolving occurrence is kept unchanged (the occurrence is
re-emitted as `.. <directive>:: <path>`, byte-for-byte identical exactly
when the original separator was a single space). -/
theorem absolute_or_existing_kept (fsEx : Comps → Bool) (dstDir srcDir : Comps)
    (p : List Char)
    (h : startsSlash p = true ∨ fsEx (normJoin dstDir (splitSlash p)) = true) :
    fpathAdjust fsEx dstDir srcDir p = p := by
  unfold fpathAdjust
  rcases h with h | h <;> simp [h]

/-- Witness for the amended C4 on an absolute path. -/
theorem absolute_or_existing_kept_w :
    (startsSlash ("/a".toList) = true ∨
      fsF (normJoin bldC (splitSlash ("/a".toList))) = true) ∧
    fpathAdjust fsF bldC extC ("/a".toList) = "/a".toList :=
  ⟨by decide, absolute_or_existing_kept fsF bldC extC ("/a".toList) (by decide)⟩

/-- Claim C9: a directive whose path stands on the next line (after `::`
only whitespace including one newline) is matched, and the replacement
joins the path onto the directive's line with exactly one space after
`::`, although the path itself (absolute here) is unchanged. -/
theorem newline_path_joined :
    adjustIncludes rstExt fsF bldC extC dsC c9in = ⟨c9out, true⟩ ∧ c9out ≠ c9in := by
  decide

/-- Claim C10: the replacement computed by `_adjust` depends on the
filesystem only through existence at the destination-relative path; whether
the rewrite target `basepath / fpath` exists is never consulted, so a
dangling reference is rewritten exactly like a valid one. -/
theorem rewrite_ignores_target (fs1 fs2 : Comps → Bool) (dstDir srcDir : Comps)
    (p : List Char)
    (h : fs1 (normJoin dstDir (splitSlash p)) = fs2 (normJoin dstDir (splitSlash p))) :
    fpathAdjust fs1 dstDir srcDir p = fpathAdjust fs2 dstDir srcDir p := by
  unfold fpathAdjust
  rw [h]

/-- Witness for C10: oracles that differ exactly at the rewrite target
(dangling for `fsF`, existing for `fsTgt`) produce the same replacement. -/
theorem rewrite_ignores_target_w :
    fsF (normJoin bldC (splitSlash ("a.rst".toList)))
        = fsTgt (normJoin bldC (splitSlash ("a.rst".toList))) ∧
    fsF (normJoin extC (splitSlash ("a.rst".toList)))
        ≠ fsTgt (normJoin extC (splitSlash ("a.rst".toList))) ∧
    fpathAdjust fsF bldC extC ("a.rst".toList)
        = fpathAdjust fsTgt bldC extC ("a.rst".toList) :=
  ⟨by decide, by decide,
    rewrite_ignores_target fsF fsTgt bldC extC ("a.rst".toList) (by decide)⟩

/-- Claim C5: for one loop iteration of `sync_contents`, the only file path
written is the destination `srcdir ++ (src relative to the entry's base)`,
and the destination's parent exists after the `mkdir` guard runs (with
every missing intermediate directory created when the parent was missing),
before the copy. -/
theorem syncStep_dst_writes (srcdir : Comps) (ds : List (List Char)) (now : Nat)
    (fsys : FS) (t : CopyTask) (fs' : FS) (c : Bool)
    (h : syncStep srcdir ds now fsys t = some (fs', c)) :
    dstOf srcdir t = srcdir ++ t.src.drop t.base.length ∧
    (∀ q, q ≠ srcdir ++ t.src.drop t.base.length → fs'.files q = fsys.files q) ∧
    existsP (ensureParent fsys (dstOf srcdir t).dropLast)
      (dstOf srcdir t).dropLast = true ∧
    (existsP fsys (dstOf srcdir t).dropLast = false →
      ∀ q, isInit q (dstOf srcdir t).dropLast = true →
        (ensureParent fsys (dstOf srcdir t).dropLast).dirs q = true) := by
  refine ⟨rfl, ?_, ensureParent_exists_self _ _, ?_⟩
  · intro q hq
    exact syncStep_frame srcdir ds now fsys t fs' c h q hq
  · intro hmiss q hqi
    unfold ensureParent
    rw [if_neg (by simp [hmiss])]
    simp [mkdirP, hqi]

/-- Witness for C5: a skip run on an up-to-date destination. -/
theorem syncStep_dst_writes_w :
    syncStep bldC dsC 9 fs5 t5 = some (fs5, false) ∧
    (dstOf bldC t5 = bldC ++ t5.src.drop t5.base.length ∧
    (∀ q, q ≠ bldC ++ t5.src.drop t5.base.length → fs5.files q = fs5.files q) ∧
    existsP (ensureParent fs5 (dstOf bldC t5).dropLast)
      (dstOf bldC t5).dropLast = true ∧
    (existsP fs5 (dstOf bldC t5).dropLast = false →
      ∀ q, isInit q (dstOf bldC t5).dropLast = true →
        (ensureParent fs5 (dstOf bldC t5).dropLast).dirs q = true)) :=
  ⟨rfl, syncStep_dst_writes bldC dsC 9 fs5 t5 fs5 false rfl⟩

/-- Claim C6: if the destination exists and is not older than the source,
the step performs no file write at all and skips the rewrite pass; whenever
the step reports an actual copy, the final state is exactly the rewrite
pass applied to the freshly copied destination file. -/
theorem syncStep_skip_or_rewrite (srcdir : Comps) (ds : List (List Char)) (now : Nat)
    (fsys : FS) (t : CopyTask) :
    (∀ si di : FileInfo, fsys.files t.src = some si →
      fsys.files (dstOf srcdir t) = some di → si.mtime ≤ di.mtime →
      syncStep srcdir ds now fsys t
          = some (ensureParent fsys (dstOf srcdir t).dropLast, false) ∧
        (ensureParent fsys (dstOf srcdir t).dropLast).files = fsys.files) ∧
    (∀ fs' : FS, syncStep srcdir ds now fsys t = some (fs', true) →
      ∃ si, fsys.files t.src = some si ∧
        fs' = rewritePass ds now
          (setFile (ensureParent fsys (dstOf srcdir t).dropLast) (dstOf srcdir t) si)
          (dstOf srcdir t) t.src.dropLast) := by
  constructor
  · intro si di hs hd hm
    refine ⟨?_, ensureParent_files _ _⟩
    simp only [syncStep]
    have hcu : copyFileUpdate (ensureParent fsys (dstOf srcdir t).dropLast)
        t.src (dstOf srcdir t)
        = some (ensureParent fsys (dstOf srcdir t).dropLast, false) := by
      unfold copyFileUpdate
      rw [ensureParent_files, hs, hd]
      simp [Nat.not_lt.mpr hm]
    rw [hcu]
    rfl
  · intro fs' h
    simp only [syncStep] at h
    split at h
    · exact absurd h (by simp)
    · next fs2 copied hc =>
      split at h
      · next hcop =>
        simp only [Option.some.injEq, Prod.mk.injEq] at h
        unfold copyFileUpdate at hc
        split at hc
        · exact absurd hc (by simp)
        · next si hs0 =>
          rw [ensureParent_files] at hs0
          split at hc
          · next di hd0 =>
            split at hc
            · next hlt =>
              simp only [Option.some.injEq, Prod.mk.injEq] at hc
              refine ⟨si, hs0, ?_⟩
              rw [← h.1, ← hc.1]
            · next hge =>
              simp only [Option.some.injEq, Prod.mk.injEq] at hc
              rw [← hc.2] at hcop
              simp at hcop
          · next hd0 =>
            simp only [Option.some.injEq, Prod.mk.injEq] at hc
            refine ⟨si, hs0, ?_⟩
            rw [← h.1, ← hc.1]
      · next hcop =>
        simp only [Option.some.injEq, Prod.mk.injEq] at h
        exact absurd h.2 (by simp)

/-- Witness for C6: the skip half applied to an up-to-date destination. -/
theorem syncStep_skip_or_rewrite_w :
    syncStep bldC dsC 9 fs5 t5
        = some (ensureParent fs5 (dstOf bldC t5).dropLast, false) ∧
      (ensureParent fs5 (dstOf bldC t5).dropLast).files = fs5.files :=
  (syncStep_skip_or_rewrite bldC dsC 9 fs5 t5).1 ⟨"x".toList, 5⟩ ⟨"x".toList, 5⟩
    rfl rfl (by decide)

/-- Counterexample to claim C7: with `srcdir = /bld`, the entries
`(/bld/b, f.rst)` and `(/ext, b/f.rst)` give tasks whose second
destination `/bld/b/f.rst` is the first task's source.  The first run
refreshes it (mtime 3 → 9); the second run, on the unchanged filesystem,
copies again (`status[1]` true), so a second run does perform writes. -/
theorem sync_second_run_writes_cex :
    syncContents bldC dsC 10 fs7 tasks7 = some (fs7b, true) ∧
    (syncContents bldC dsC 11 fs7b tasks7).map (fun r => r.2) = some true :=
  ⟨rfl, rfl⟩

/-- Claim C7 as amended: running synchronization twice is idempotent
provided the first run does not itself rewrite any task's source — in
particular whenever no task's destination path coincides with any task's
source path — and no source mtime lies in the future: then the second run
returns the filesystem unchanged and reports no copy. -/
theorem sync_idempotent_disjoint (srcdir : Comps) (ds : List (List Char))
    (now now2 : Nat) (fsys fs1 : FS) (ts : List CopyTask) (w : Bool)
    (h1 : syncContents srcdir ds now fsys ts = some (fs1, w))
    (hdisj : ∀ t ∈ ts, ∀ u ∈ ts, dstOf srcdir u ≠ t.src)
    (hnow : ∀ t ∈ ts, ∀ si : FileInfo, fsys.files t.src = some si → si.mtime ≤ now) :
    syncContents srcdir ds now2 fs1 ts = some (fs1, false) := by
  apply syncContents_skip
  intro t ht
  obtain ⟨si, hsi0, hsi1, hge⟩ :=
    syncContents_estab ts srcdir ds now fsys fs1 w h1 hdisj hnow t ht
  exact ⟨si, hsi1, hge, syncContents_parent ts srcdir ds now fsys fs1 w h1 t ht⟩

theorem fs7w_now : ∀ t ∈ [t7w], ∀ si : FileInfo,
    fs7w.files t.src = some si → si.mtime ≤ 10 := by
  intro t ht si hsi
  rw [List.mem_singleton] at ht
  subst ht
  have h0 : fs7w.files t7w.src = some ⟨"z".toList, 5⟩ := rfl
  rw [h0] at hsi
  rw [← Option.some.inj hsi]
  decide

/-- Witness for the amended C7: one task `/ext/g.rst → /bld/g.rst`; the
first run copies, the second changes nothing. -/
theorem sync_idempotent_disjoint_w :
    syncContents bldC dsC 10 fs7w [t7w] = some (fs7w1, true) ∧
    (∀ t ∈ [t7w], ∀ u ∈ [t7w], dstOf bldC u ≠ t.src) ∧
    (∀ t ∈ [t7w], ∀ si : FileInfo, fs7w.files t.src = some si → si.mtime ≤ 10) ∧
    syncContents bldC dsC 11 fs7w1 [t7w] = some (fs7w1, false) :=
  ⟨rfl, by decide, fs7w_now,
    sync_idempotent_disjoint bldC dsC 10 11 fs7w fs7w1 [t7w] true rfl (by decide) fs7w_now⟩

/-- Claim C8: a file whose suffix is not `.rst` is returned from unmodified
(the early exit precedes the `open`), for every oracle, directive list and
content; at the filesystem level the rewrite pass on such a destination is
the identity even right after a copy. -/
theorem adjust_skips_non_rst (dst dstDir srcDir sp : Comps) (fsEx : Comps → Bool)
    (ds : List (List Char)) (content : List Char) (now : Nat) (fsys : FS)
    (h : suffixOf dst ≠ rstExt) :
    adjustIncludes (suffixOf dst) fsEx dstDir srcDir ds content = ⟨content, false⟩ ∧
    rewritePass ds now fsys dst sp = fsys := by
  refine ⟨adjustIncludes_non_rst _ _ _ _ _ _ h, ?_⟩
  unfold rewritePass
  split
  · rfl
  · next fi hfi =>
    dsimp only
    rw [adjustIncludes_non_rst _ _ _ _ _ _ h]
    rfl

/-- Witness for C8 on `/bld/n.txt`. -/
theorem adjust_skips_non_rst_w :
    suffixOf ["bld".toList, "n.txt".toList] ≠ rstExt ∧
    (adjustIncludes (suffixOf ["bld".toList, "n.txt".toList]) fsF bldC extC dsC
        ("hello".toList) = ⟨"hello".toList, false⟩ ∧
      rewritePass dsC 7 fsEmpty ["bld".toList, "n.txt".toList] extC = fsEmpty) :=
  ⟨by decide, adjust_skips_non_rst ["bld".toList, "n.txt".toList] bldC extC extC
    fsF dsC ("hello".toList) 7 fsEmpty (by decide)⟩
